import Mathlib

/-!
Verification of the `bluesky-team-check` widget core (`src/App.tsx`).

The development shallowly embeds the pure/orchestration logic of the source:
the `chunked` and `mapDefined` list utilities, the resolve-then-batch-query
aggregation pipeline of the resource fetcher, the `isFollowed` selector, and
the supersession behaviour of the lookup controller.
-/

set_option autoImplicit false

namespace TeamCheck

universe u v

/-- JS `Array.prototype.slice` index normalisation: a negative index counts
from the end of the array (clamped at 0), a non-negative one is clamped at
the length. -/
def jsIndex (len : Nat) (v : Int) : Nat :=
  if v < 0 then ((len : Int) + v).toNat else min v.toNat len

/-- JS `arr.slice(start, stop)`: the elements from the normalised `start`
index (inclusive) to the normalised `stop` index (exclusive). -/
def jsSlice {T : Type u} (arr : List T) (start stop : Int) : List T :=
  (arr.take (jsIndex arr.length stop)).drop (jsIndex arr.length start)

/-- Fuel-indexed embedding of the loop in `chunked` (src/App.tsx:189-197):

    for (let i = 0, il = arr.length; i < il; i += size) {
      chunks.push(arr.slice(i, i + size));
    }

One unit of fuel is one loop iteration; exiting the loop consumes no fuel,
so `none` for every fuel amount means the JS loop never terminates. -/
def chunkedLoop {T : Type u} (arr : List T) (size : Int) :
    Nat → Int → List (List T) → Option (List (List T))
  | fuel, i, chunks =>
    if i < (arr.length : Int) then
      match fuel with
      | 0 => none
      | f + 1 => chunkedLoop arr size f (i + size) (chunks ++ [jsSlice arr i (i + size)])
    else
      some chunks

/-- Structural recursion core of `chunked`: `fuel` is only a termination
measure, any `fuel ≥ arr.length` gives the value of the JS loop for a
positive `size` (see `chunkedGo_fuel_irrel` and `chunkedLoop_eq_chunked`).
The `0, _ :: _` case is unreachable under that bound. -/
def chunkedGo {T : Type u} (size : Nat) : Nat → List T → List (List T)
  | _, [] => []
  | 0, _ :: _ => []
  | fuel + 1, a :: as => ((a :: as).take size) :: chunkedGo size fuel ((a :: as).drop size)

/-- `chunked` (src/App.tsx:189-197) for a positive chunk size, as a total
function: takes `size`-element slices in order until the list is exhausted.
Proved equivalent to the faithful loop embedding `chunkedLoop` in
`chunkedLoop_eq_chunked` below; the JS loop diverges when `size ≤ 0` and the
array is non-empty (see `chunkedLoop`), which this total form cannot
represent. -/
def chunked {T : Type u} (arr : List T) (size : Nat) : List (List T) :=
  chunkedGo size arr.length arr

/-- `mapDefined` (src/App.tsx:173-187): applies `mapper` to each element in
order, keeping only the results that are not `undefined`. -/
def mapDefined {T : Type u} {R : Type v} : List T → (T → Option R) → List R
  | [], _ => []
  | x :: xs, mapper =>
    match mapper x with
    | some temp => temp :: mapDefined xs mapper
    | none => mapDefined xs mapper

/-- Model of `Promise.all` over a list of settled outcomes: succeeds with the
list of values when every promise fulfilled, otherwise rejects with the
first rejection in the list. -/
def promiseAll {E : Type u} {A : Type v} : List (Except E A) → Except E (List A)
  | [] => Except.ok []
  | Except.error e :: _ => Except.error e
  | Except.ok a :: rest => (promiseAll rest).map (a :: ·)

/-- Canonical account identifiers (the `DID` type of the source). -/
abbrev DID := String

/-- One entry of the `app.bsky.graph.getRelationships` response list: the
remote schema returns either a `#relationship` record (carrying the other
party's `did` and a truthy/falsy `followedBy` flag) or a `#notFoundActor`
record. The constructor is the `$type` discriminator. -/
inductive Relation where
  | relationship (did : DID) (followedBy : Bool)
  | notFoundActor (actor : String)
deriving DecidableEq

/-- Response data of `app.bsky.graph.getRelationships`. -/
structure RelationshipsData where
  relationships : List Relation
deriving DecidableEq

/-- Response data of `com.atproto.identity.resolveHandle`. -/
structure ResolveHandleData where
  did : DID
deriving DecidableEq

/-- The remote API boundary: the two RPC operations the app calls, each able
to fail with an error of type `E`. -/
structure Network (E : Type) where
  resolveHandle : String → Except E ResolveHandleData
  getRelationships : DID → List DID → Except E RelationshipsData

/-- A roster entry `[did, handle]` (src/App.tsx:14). -/
abbrev Member := DID × String

/-- The fixed team roster (src/App.tsx:14-31). -/
def members : List Member :=
  [ ("did:plc:3jpt2mvvsumj2r7eqk4gzzjz", "esb.lol"),
    ("did:plc:44ybard66vv44zksje25o7dz", "bnewbold.net"),
    ("did:plc:fgsn4gf2dlgnybo4nbej5b2s", "anshnanda.com"),
    ("did:plc:fpruhuo22xkm5o7ttr2ktxdo", "danabra.mov"),
    ("did:plc:l3rouwludahu3ui3bt66mfvj", "divy.zone"),
    ("did:plc:oisofpd7lj26yvgiivf3lxsi", "haileyok.com"),
    ("did:plc:oky5czdrnfjpqslsw2a5iclo", "jay.bsky.team"),
    ("did:plc:q6gjnaw2blty4crticxkmujt", "jaz.bsky.social"),
    ("did:plc:qjeavhlw222ppsre4rscd3n2", "rose.bsky.team"),
    ("did:plc:ragtjsm2j2vknwkz3zp4oxrd", "pfrazee.com"),
    ("did:plc:tl7zqgil2irwndwojsxszceb", "jessica.bsky.team"),
    ("did:plc:tpg43qhh4lw4ksiffs4nbda3", "jacob.gold"),
    ("did:plc:upo6iq6ekh66d4mbhmiy6se4", "foysal.codes"),
    ("did:plc:vjug55kidv6sye7ykr5faxxn", "emilyliu.me"),
    ("did:plc:vpkhqolt662uhesyj6nxm7ys", "why.bsky.team"),
    ("did:plc:yk4dd2qkboz2yv6tpubpc6co", "dholms.xyz") ]

/-- JS `s.startsWith(pre)` as a structural character-list prefix test (the
Lean core `String.startsWith` is extensionally the same but does not reduce
in the kernel, so this form is used for the embedding). -/
def strStartsWith (s pre : String) : Bool :=
  pre.data.isPrefixOf s.data

/-- Resolution step of the resource fetcher (src/App.tsx:41-54): an actor
already in `did:` form passes through with no network call, otherwise the
`com.atproto.identity.resolveHandle` RPC is invoked with the actor as the
handle. The second component records the handle-resolution calls issued
(each entry is the `handle` parameter of one call). -/
def resolveStep {E : Type} (net : Network E) (actor : String) :
    Except E DID × List String :=
  if strStartsWith actor "did:" then
    (Except.ok actor, [])
  else
    ((net.resolveHandle actor).map ResolveHandleData.did, [actor])

/-- The `app.bsky.graph.getRelationships` calls the fetcher issues for a
roster (src/App.tsx:56-64): one per 30-element batch, each carrying the
resolved `did` as `actor` and the batch members' dids as `others`. -/
def batchCalls (roster : List Member) (did : DID) : List (DID × List DID) :=
  (chunked roster 30).map (fun chunk => (did, chunk.map (fun member => member.1)))

/-- The settled outcomes of the batch calls of `batchCalls`, in batch
order. -/
def batchResponses {E : Type} (net : Network E) (roster : List Member) (did : DID) :
    List (Except E RelationshipsData) :=
  (chunked roster 30).map
    (fun chunk => net.getRelationships did (chunk.map (fun member => member.1)))

/-- The callback of `mapDefined` at src/App.tsx:68-72: a `#relationship`
record with a truthy `followedBy` yields its `did`, everything else yields
`undefined`. -/
def relationMapper : Relation → Option DID
  | Relation.relationship did followedBy => if followedBy then some did else none
  | Relation.notFoundActor _ => none

/-- Aggregation step of the fetcher (src/App.tsx:66-75): awaits all batch
queries via `Promise.all`, then flat-maps each response's relationships
through `mapDefined` with `relationMapper`. -/
def aggregateStep {E : Type} (net : Network E) (roster : List Member) (did : DID) :
    Except E (List DID) :=
  (promiseAll (batchResponses net roster did)).map
    (fun responses =>
      responses.flatMap (fun response => mapDefined response.relationships relationMapper))

/-- Record of the remote calls a fetcher run issued. -/
structure CallLog where
  handleCalls : List String
  relCalls : List (DID × List DID)
deriving DecidableEq

/-- The whole resource fetcher (src/App.tsx:38-76), over an arbitrary roster:
resolve the actor, then batch-query relationships, producing the followed
list on success; paired with the log of remote calls issued. -/
def fetchFollowed {E : Type} (net : Network E) (roster : List Member) (actor : String) :
    Except E (List DID) × CallLog :=
  match resolveStep net actor with
  | (Except.error e, handleCalls) => (Except.error e, ⟨handleCalls, []⟩)
  | (Except.ok did, handleCalls) =>
    (aggregateStep net roster did, ⟨handleCalls, batchCalls roster did⟩)

/-- States of a solid-js resource: only `ready` exposes `latest` to the
selector source in src/App.tsx:79 (a `refreshing` resource also holds a
`latest` value, but the source's `state === 'ready'` test excludes it). -/
inductive ResourceState where
  | unresolved
  | pending
  | refreshing (latest : List DID)
  | ready (latest : List DID)
  | errored (error : String)
deriving DecidableEq

/-- The selector source of `isFollowed` (src/App.tsx:79):
`resource.state === 'ready' ? resource.latest : EMPTY_ARRAY`. -/
def selectorSource : ResourceState → List DID
  | ResourceState.ready latest => latest
  | _ => []

/-- `isFollowed` (src/App.tsx:78-81): membership of `did` in the selector
source (`array.includes(did)`). -/
def isFollowed (state : ResourceState) (did : DID) : Bool :=
  (selectorSource state).contains did

/-- Lookup Controller states (spec section 4.5). -/
inductive LookupState where
  | idle
  | pending
  | ready (result : List DID)
  | errored (error : String)
deriving DecidableEq

/-- Modelled from the spec: the Lookup Controller's observable state together
with the identity of the current lookup cycle. The controller logic itself
lives in the solid-js `createResource`/`makeAbortable` primitives
(src/App.tsx:34-38 only invokes them), so it is modelled from spec sections
4.5 and 5. -/
structure Controller where
  cycle : Nat
  state : LookupState
deriving DecidableEq

/-- Modelled from the spec: submitting a new Actor Query begins a fresh
lookup cycle (superseding any in-flight one) and enters `pending`. -/
def submit (c : Controller) : Controller :=
  { cycle := c.cycle + 1, state := LookupState.pending }

/-- How a completed lookup outcome is rendered as a state. -/
def settle (outcome : Except String (List DID)) : LookupState :=
  match outcome with
  | Except.ok result => LookupState.ready result
  | Except.error e => LookupState.errored e

/-- Modelled from the spec: a lookup completion is tagged with the cycle that
produced it; it updates the controller state only when that cycle is still
the current one, otherwise it is silently dropped. -/
def complete (c : Controller) (cycle : Nat) (outcome : Except String (List DID)) : Controller :=
  if cycle = c.cycle then { cycle := c.cycle, state := settle outcome } else c

/-- A network fixture whose calls always succeed with trivial data. -/
def netW : Network String :=
  ⟨fun _ => Except.ok ⟨"did:w"⟩, fun _ _ => Except.ok ⟨[]⟩⟩

/-- A network fixture returning a mix of relationship records with
`followedBy` true and false and a non-relationship record. -/
def net1 : Network String :=
  ⟨fun _ => Except.ok ⟨"did:3"⟩,
   fun _ _ => Except.ok ⟨[Relation.relationship "did:1" true,
     Relation.relationship "did:2" false, Relation.notFoundActor "did:0"]⟩⟩

/-- A network fixture whose relationship queries always fail. -/
def netErr : Network String :=
  ⟨fun _ => Except.ok ⟨"did:3"⟩, fun _ _ => Except.error "boom"⟩

/-- A two-member roster fixture. -/
def rosterSmall : List Member := [("did:1", "alice"), ("did:2", "bob")]

/-- A 45-member roster fixture. -/
def roster45 : List Member := List.replicate 45 ("did:m", "member")

lemma chunkedGo_nil {T : Type u} (size fuel : Nat) : chunkedGo size fuel ([] : List T) = [] := by
  cases fuel <;> rfl

lemma chunkedGo_fuel_irrel {T : Type u} (size : Nat) (hs : 1 ≤ size) :
    ∀ (n fuel : Nat) (arr : List T), arr.length ≤ fuel → fuel ≤ n →
      chunkedGo size fuel arr = chunked arr size := by
  intro n
  induction n with
  | zero =>
    intro fuel arr hlen hn
    interval_cases fuel
    cases arr with
    | nil => rfl
    | cons a as => simp at hlen
  | succ n ih =>
    intro fuel arr hlen hn
    cases arr with
    | nil => rw [chunkedGo_nil]; rfl
    | cons a as =>
      cases fuel with
      | zero => simp at hlen
      | succ f =>
        have h1 : as.length ≤ f := by simpa using hlen
        have hdrop : ((a :: as).drop size).length ≤ as.length := by
          simp only [List.length_drop, List.length_cons]
          omega
        show (a :: as).take size :: chunkedGo size f ((a :: as).drop size) = chunked (a :: as) size
        rw [ih f _ (le_trans hdrop h1) (by omega)]
        unfold chunked
        simp only [List.length_cons, chunkedGo]
        rw [ih as.length _ hdrop (by omega)]
        rfl

lemma chunked_nil {T : Type u} (size : Nat) : chunked ([] : List T) size = [] := rfl

lemma chunked_cons_eq {T : Type u} (l : List T) (hne : l ≠ []) (size : Nat) (hs : 1 ≤ size) :
    chunked l size = l.take size :: chunked (l.drop size) size := by
  cases l with
  | nil => exact absurd rfl hne
  | cons a as =>
    show chunkedGo size (a :: as).length (a :: as) = _
    simp only [List.length_cons, chunkedGo]
    congr 1
    exact chunkedGo_fuel_irrel size hs as.length as.length _
      (by simp only [List.length_drop, List.length_cons]; omega) le_rfl

lemma chunked_eq_nil_iff {T : Type u} (l : List T) (size : Nat) (hs : 1 ≤ size) :
    chunked l size = [] ↔ l = [] := by
  cases l with
  | nil => simp [chunked_nil]
  | cons a as => rw [chunked_cons_eq (a :: as) (by simp) size hs]; simp

lemma chunked_flatten {T : Type u} (size : Nat) (hs : 1 ≤ size) :
    ∀ (n : Nat) (arr : List T), arr.length ≤ n → (chunked arr size).flatten = arr := by
  intro n
  induction n with
  | zero =>
    intro arr hlen
    have : arr = [] := List.length_eq_zero.mp (by omega)
    subst this
    rfl
  | succ n ih =>
    intro arr hlen
    cases arr with
    | nil => rfl
    | cons a as =>
      rw [chunked_cons_eq (a :: as) (by simp) size hs]
      have hdrop : ((a :: as).drop size).length ≤ n := by
        simp only [List.length_drop, List.length_cons]
        simp only [List.length_cons] at hlen
        omega
      simp only [List.flatten_cons, ih _ hdrop]
      exact List.take_append_drop size (a :: as)

lemma chunked_dropLast_length {T : Type u} (size : Nat) (hs : 1 ≤ size) :
    ∀ (n : Nat) (arr : List T), arr.length ≤ n →
      ∀ c ∈ (chunked arr size).dropLast, c.length = size := by
  intro n
  induction n with
  | zero =>
    intro arr hlen
    have : arr = [] := List.length_eq_zero.mp (by omega)
    subst this
    simp [chunked_nil]
  | succ n ih =>
    intro arr hlen
    cases arr with
    | nil => simp [chunked_nil]
    | cons a as =>
      rw [chunked_cons_eq (a :: as) (by simp) size hs]
      intro c hc
      have hdrop : ((a :: as).drop size).length ≤ n := by
        simp only [List.length_drop, List.length_cons]
        simp only [List.length_cons] at hlen
        omega
      by_cases hrest : (a :: as).drop size = []
      · rw [hrest, chunked_nil] at hc
        simp at hc
      · have hne : chunked ((a :: as).drop size) size ≠ [] := by
          rw [Ne, chunked_eq_nil_iff _ size hs]
          exact hrest
        rw [List.dropLast_cons_of_ne_nil hne] at hc
        rcases List.mem_cons.mp hc with h | h
        · subst h
          have hlong : size ≤ (a :: as).length := by
            by_contra hshort
            exact hrest (List.drop_eq_nil_of_le (by omega))
          simp only [List.length_cons] at hlong
          simp [List.length_take, Nat.min_eq_left, hlong]
        · exact ih _ hdrop c h

lemma chunked_length_le {T : Type u} (size : Nat) (hs : 1 ≤ size) :
    ∀ (n : Nat) (arr : List T), arr.length ≤ n →
      ∀ c ∈ chunked arr size, c.length ≤ size := by
  intro n
  induction n with
  | zero =>
    intro arr hlen
    have : arr = [] := List.length_eq_zero.mp (by omega)
    subst this
    simp [chunked_nil]
  | succ n ih =>
    intro arr hlen
    cases arr with
    | nil => simp [chunked_nil]
    | cons a as =>
      rw [chunked_cons_eq (a :: as) (by simp) size hs]
      intro c hc
      have hdrop : ((a :: as).drop size).length ≤ n := by
        simp only [List.length_drop, List.length_cons]
        simp only [List.length_cons] at hlen
        omega
      rcases List.mem_cons.mp hc with h | h
      · subst h
        simp [List.length_take]
      · exact ih _ hdrop c h

lemma chunked_length_30 {T : Type u} :
    ∀ (n : Nat) (arr : List T), arr.length ≤ n →
      (chunked arr 30).length = (arr.length + 29) / 30 := by
  intro n
  induction n with
  | zero =>
    intro arr hlen
    have : arr = [] := List.length_eq_zero.mp (by omega)
    subst this
    simp [chunked_nil]
  | succ n ih =>
    intro arr hlen
    cases arr with
    | nil => simp [chunked_nil]
    | cons a as =>
      rw [chunked_cons_eq (a :: as) (by simp) 30 (by omega)]
      have hdrop : ((a :: as).drop 30).length ≤ n := by
        simp only [List.length_drop, List.length_cons]
        simp only [List.length_cons] at hlen
        omega
      rw [List.length_cons, ih _ hdrop]
      simp only [List.length_drop, List.length_cons]
      omega

lemma jsIndex_natCast (len k : Nat) : jsIndex len (k : Int) = min k len := by
  unfold jsIndex
  rw [if_neg (by omega)]
  simp

lemma jsSlice_natCast {T : Type u} (arr : List T) (i size : Nat) :
    jsSlice arr (i : Int) ((i : Int) + (size : Int)) = (arr.drop i).take size := by
  unfold jsSlice
  have h2 : ((i : Int) + (size : Int)) = ((i + size : Nat) : Int) := by push_cast; ring
  rw [h2, jsIndex_natCast, jsIndex_natCast]
  by_cases hi : i ≤ arr.length
  · rw [Nat.min_eq_left hi]
    have htake : arr.take (min (i + size) arr.length) = arr.take (i + size) := by
      by_cases h : i + size ≤ arr.length
      · rw [Nat.min_eq_left h]
      · rw [Nat.min_eq_right (by omega), List.take_length,
          List.take_of_length_le (by omega)]
    rw [htake, List.drop_take, Nat.add_sub_cancel_left]
  · rw [Nat.min_eq_right (by omega)]
    have h3 : arr.drop i = [] := List.drop_eq_nil_of_le (by omega)
    rw [h3, List.take_nil]
    exact List.drop_eq_nil_of_le (by simp [List.length_take])

lemma chunkedLoop_zero {T : Type u} (arr : List T) (size i : Int) (chunks : List (List T)) :
    chunkedLoop arr size 0 i chunks =
      if i < (arr.length : Int) then none else some chunks := rfl

lemma chunkedLoop_succ {T : Type u} (arr : List T) (size : Int) (f : Nat) (i : Int)
    (chunks : List (List T)) :
    chunkedLoop arr size (f + 1) i chunks =
      if i < (arr.length : Int) then
        chunkedLoop arr size f (i + size) (chunks ++ [jsSlice arr i (i + size)])
      else some chunks := rfl

/-- The loop embedding agrees with the structural `chunked` whenever the
chunk size is positive: from loop index `i` and accumulator `chunks`, with
enough fuel, the loop returns `chunks` followed by the chunks of the
remaining suffix. -/
lemma chunkedLoop_inv {T : Type u} (arr : List T) (size : Nat) (hs : 1 ≤ size) :
    ∀ (fuel i : Nat) (chunks : List (List T)), arr.length ≤ i + fuel * size →
      chunkedLoop arr (size : Int) fuel (i : Int) chunks =
        some (chunks ++ chunked (arr.drop i) size) := by
  intro fuel
  induction fuel with
  | zero =>
    intro i chunks hlen
    rw [chunkedLoop_zero, if_neg (by omega)]
    rw [List.drop_eq_nil_of_le (by omega), chunked_nil, List.append_nil]
  | succ f ih =>
    intro i chunks hlen
    rw [chunkedLoop_succ]
    by_cases hc : (i : Int) < (arr.length : Int)
    · rw [if_pos hc]
      have hcast : (i : Int) + (size : Int) = ((i + size : Nat) : Int) := by push_cast; ring
      rw [hcast]
      rw [ih (i + size) (chunks ++ [jsSlice arr (i : Int) ((i + size : Nat) : Int)])
        (by
          have hmul : (f + 1) * size = f * size + size := by ring
          omega)]
      congr 1
      rw [← hcast, jsSlice_natCast]
      have hne : arr.drop i ≠ [] := by
        intro hnil
        have := congrArg List.length hnil
        simp only [List.length_drop, List.length_nil] at this
        omega
      rw [chunked_cons_eq (arr.drop i) hne size hs, List.drop_drop]
      simp
    · rw [if_neg hc]
      rw [List.drop_eq_nil_of_le (by omega), chunked_nil, List.append_nil]

/-- With fuel `arr.length`, the JS loop computes exactly `chunked arr size`
for every positive size. -/
lemma chunkedLoop_eq_chunked {T : Type u} (arr : List T) (size : Nat) (hs : 1 ≤ size) :
    chunkedLoop arr (size : Int) arr.length 0 [] = some (chunked arr size) := by
  have hmul : arr.length * 1 ≤ arr.length * size := Nat.mul_le_mul_left arr.length hs
  have h := chunkedLoop_inv arr size hs arr.length 0 [] (by omega)
  simpa using h

/-- When `size ≤ 0` and the array is non-empty, the loop index never reaches
the array length: the loop body runs forever (the fuel-indexed embedding
returns `none` for every fuel amount). -/
lemma chunkedLoop_none_of_nonpos {T : Type u} (arr : List T) (hne : arr ≠ [])
    (size : Int) (hsz : size ≤ 0) :
    ∀ (fuel : Nat) (i : Int), i ≤ 0 → ∀ (chunks : List (List T)),
      chunkedLoop arr size fuel i chunks = none := by
  have hpos : 0 < arr.length := List.length_pos.mpr hne
  intro fuel
  induction fuel with
  | zero =>
    intro i hi chunks
    rw [chunkedLoop_zero, if_pos (by omega)]
  | succ f ih =>
    intro i hi chunks
    rw [chunkedLoop_succ, if_pos (by omega)]
    exact ih (i + size) (by omega) _

lemma mapDefined_eq_filterMap {T : Type u} {R : Type v} (f : T → Option R) :
    ∀ (l : List T), mapDefined l f = l.filterMap f := by
  intro l
  induction l with
  | nil => rfl
  | cons x xs ih => cases h : f x <;> simp [mapDefined, h, List.filterMap_cons, ih]

lemma promiseAll_ok_iff {E : Type u} {A : Type v} :
    ∀ (rs : List (Except E A)) (as : List A),
      promiseAll rs = Except.ok as ↔ rs = as.map Except.ok := by
  intro rs
  induction rs with
  | nil =>
    intro as
    cases as <;> simp [promiseAll]
  | cons r rest ih =>
    intro as
    cases r with
    | error e => cases as <;> simp [promiseAll]
    | ok a =>
      show (promiseAll rest).map (a :: ·) = Except.ok as ↔ _
      constructor
      · intro h
        cases hrest : promiseAll rest with
        | error e => rw [hrest] at h; exact absurd h (by simp [Except.map])
        | ok as2 =>
          rw [hrest] at h
          have hcons : a :: as2 = as := by simpa [Except.map] using h
          subst hcons
          simp only [List.map_cons, List.cons.injEq, true_and]
          exact (ih as2).mp hrest
      · intro h
        cases as with
        | nil => simp at h
        | cons b bs =>
          simp only [List.map_cons, List.cons.injEq, Except.ok.injEq] at h
          obtain ⟨hab, hrest⟩ := h
          rw [(ih bs).mpr hrest]
          simp [Except.map, hab]

lemma promiseAll_error_mem {E : Type u} {A : Type v} :
    ∀ (rs : List (Except E A)) (e : E),
      promiseAll rs = Except.error e → Except.error e ∈ rs := by
  intro rs
  induction rs with
  | nil => intro e h; simp [promiseAll] at h
  | cons r rest ih =>
    intro e h
    cases r with
    | error e2 =>
      have : e2 = e := by simpa [promiseAll] using h
      subst this
      exact List.mem_cons_self _ _
    | ok a =>
      show Except.error e ∈ Except.ok a :: rest
      replace h : (promiseAll rest).map (a :: ·) = Except.error e := h
      cases hrest : promiseAll rest with
      | error e2 =>
        rw [hrest] at h
        have he : e2 = e := by simpa [Except.map] using h
        exact List.mem_cons_of_mem _ (he ▸ ih e2 hrest)
      | ok as2 => rw [hrest] at h; simp [Except.map] at h

lemma promiseAll_ok_of_forall {E : Type u} {A : Type v} :
    ∀ (rs : List (Except E A)), (∀ r ∈ rs, ∃ a, r = Except.ok a) →
      ∃ as, promiseAll rs = Except.ok as := by
  intro rs
  induction rs with
  | nil => intro _; exact ⟨[], rfl⟩
  | cons r rest ih =>
    intro hall
    obtain ⟨a, ha⟩ := hall r (List.mem_cons_self _ _)
    subst ha
    obtain ⟨as, has⟩ := ih (fun r hr => hall r (List.mem_cons_of_mem _ hr))
    refine ⟨a :: as, ?_⟩
    show (promiseAll rest).map (a :: ·) = _
    rw [has]
    rfl


/-- C1: on a successful lookup, the aggregated result set contains exactly the
identifiers of response entries that are `#relationship` records with a true
`followedBy` flag; `followedBy: false` relationship records and
non-relationship records contribute nothing. -/
theorem aggregation_filtering {E : Type} (net : Network E) (roster : List Member)
    (did : DID) (out : List DID) (h : aggregateStep net roster did = Except.ok out) :
    ∀ d, d ∈ out ↔
      ∃ response, Except.ok response ∈ batchResponses net roster did ∧
        Relation.relationship d true ∈ response.relationships := by
  intro d
  unfold aggregateStep at h
  cases hall : promiseAll (batchResponses net roster did) with
  | error e => rw [hall] at h; simp [Except.map] at h
  | ok resps =>
    rw [hall] at h
    have hout : out =
        resps.flatMap (fun response => mapDefined response.relationships relationMapper) := by
      simpa [Except.map] using h.symm
    have hbrs : batchResponses net roster did = resps.map Except.ok :=
      (promiseAll_ok_iff _ _).mp hall
    subst hout
    rw [hbrs]
    constructor
    · intro hd
      rw [List.mem_flatMap] at hd
      obtain ⟨resp, hresp, hdm⟩ := hd
      refine ⟨resp, List.mem_map_of_mem Except.ok hresp, ?_⟩
      rw [mapDefined_eq_filterMap, List.mem_filterMap] at hdm
      obtain ⟨rel, hrel, hmap⟩ := hdm
      cases rel with
      | relationship did2 fb =>
        cases fb
        · simp [relationMapper] at hmap
        · have : did2 = d := by simpa [relationMapper] using hmap
          exact this ▸ hrel
      | notFoundActor a => simp [relationMapper] at hmap
    · rintro ⟨resp, hmem, hrel⟩
      rw [List.mem_map] at hmem
      obtain ⟨resp2, hresp2, heq⟩ := hmem
      have hre : resp2 = resp := by injection heq
      subst hre
      rw [List.mem_flatMap]
      refine ⟨resp2, hresp2, ?_⟩
      rw [mapDefined_eq_filterMap, List.mem_filterMap]
      exact ⟨Relation.relationship d true, hrel, by simp [relationMapper]⟩

/-- Witness for C1: a concrete run whose single batch response mixes a
`followedBy: true` relationship, a `followedBy: false` relationship, and a
non-relationship record; the result is `["did:1"]`. -/
theorem aggregation_filtering_witness :
    "did:1" ∈ ["did:1"] ↔
      ∃ response, Except.ok response ∈ batchResponses net1 rosterSmall "did:3" ∧
        Relation.relationship "did:1" true ∈ response.relationships :=
  aggregation_filtering net1 rosterSmall "did:3" ["did:1"] rfl "did:1"

/-- C2: for every list and positive chunk size, concatenating the chunks of
`chunked` reproduces the list exactly (so the chunks are contiguous
sub-sequences in original order), every chunk except possibly the last has
length exactly `size`, and no chunk exceeds `size`. -/
theorem chunk_roundtrip {T : Type u} (arr : List T) (size : Nat) (h : 1 ≤ size) :
    (chunked arr size).flatten = arr
    ∧ (∀ c ∈ (chunked arr size).dropLast, c.length = size)
    ∧ (∀ c ∈ chunked arr size, c.length ≤ size) :=
  ⟨chunked_flatten size h arr.length arr le_rfl,
   chunked_dropLast_length size h arr.length arr le_rfl,
   chunked_length_le size h arr.length arr le_rfl⟩

/-- Witness for C2 at the list `[1, 2, 3, 4, 5]` with chunk size 2. -/
theorem chunk_roundtrip_witness :
    (chunked [1, 2, 3, 4, 5] 2).flatten = [1, 2, 3, 4, 5] :=
  (chunk_roundtrip [1, 2, 3, 4, 5] 2 (by decide)).1

/-- C3: `mapDefined` returns exactly the present values of the transform in
input order (it is `List.filterMap`), so its output is never longer than its
input and kept elements stay in relative order. -/
theorem mapDefined_spec {T : Type u} {R : Type v} (l : List T) (f : T → Option R) :
    mapDefined l f = l.filterMap f
    ∧ (mapDefined l f).length ≤ l.length
    ∧ (∀ r, r ∈ mapDefined l f ↔ ∃ x, x ∈ l ∧ f x = some r) := by
  refine ⟨mapDefined_eq_filterMap f l, ?_, ?_⟩
  · rw [mapDefined_eq_filterMap]
    exact List.length_filterMap_le f l
  · intro r
    rw [mapDefined_eq_filterMap]
    exact List.mem_filterMap

/-- C4: an actor string already in canonical `did:` form passes through the
resolver unchanged, with no handle-resolution network call issued. -/
theorem resolver_passthrough {E : Type} (net : Network E) (actor : String)
    (h : strStartsWith actor "did:" = true) :
    resolveStep net actor = (Except.ok actor, []) := by
  simp [resolveStep, h]

/-- Witness for C4 at `"did:plc:abc"`. -/
theorem resolver_passthrough_witness :
    resolveStep netW "did:plc:abc" = (Except.ok "did:plc:abc", []) :=
  resolver_passthrough netW "did:plc:abc" (by decide)

/-- C5: an actor string not in canonical form causes exactly one
handle-resolution call carrying that string as the handle, and on success the
resolver returns the `did` of the response. -/
theorem resolver_delegation {E : Type} (net : Network E) (actor : String)
    (h : strStartsWith actor "did:" = false) :
    (resolveStep net actor).2 = [actor]
    ∧ ∀ response, net.resolveHandle actor = Except.ok response →
        (resolveStep net actor).1 = Except.ok response.did := by
  constructor
  · simp [resolveStep, h]
  · intro response hr
    simp [resolveStep, h, hr, Except.map]

/-- Witness for C5 at `"example.bsky.social"` against the fixture network
whose resolver answers `"did:3"`. -/
theorem resolver_delegation_witness :
    (resolveStep net1 "example.bsky.social").2 = ["example.bsky.social"]
    ∧ (resolveStep net1 "example.bsky.social").1 = Except.ok "did:3" := by
  have h := resolver_delegation net1 "example.bsky.social" (by decide)
  exact ⟨h.1, h.2 ⟨"did:3"⟩ rfl⟩

/-- C6: for every roster, the fetcher issues exactly
`ceil(|roster| / 30) = (|roster| + 29) / 30` relationship queries, one per
batch produced by `chunked` with size 30, each carrying that batch's member
identifiers as the `others` list. -/
theorem aggregator_batching {E : Type} (net : Network E) (roster : List Member)
    (actor : String) (h : strStartsWith actor "did:" = true) :
    (fetchFollowed net roster actor).2.relCalls =
      (chunked roster 30).map (fun chunk => (actor, chunk.map (fun member => member.1)))
    ∧ (fetchFollowed net roster actor).2.relCalls.length = (roster.length + 29) / 30 := by
  have hres : resolveStep net actor = (Except.ok actor, []) := by
    simp [resolveStep, h]
  have hcalls : (fetchFollowed net roster actor).2.relCalls = batchCalls roster actor := by
    unfold fetchFollowed
    rw [hres]
  refine ⟨hcalls, ?_⟩
  rw [hcalls]
  unfold batchCalls
  rw [List.length_map]
  exact chunked_length_30 roster.length roster le_rfl

/-- Witness for C6: a 45-member roster yields exactly 2 batch calls, with 30
and 15 identifiers respectively. -/
theorem aggregator_batching_witness :
    (fetchFollowed netW roster45 "did:x").2.relCalls.length = 2
    ∧ (fetchFollowed netW roster45 "did:x").2.relCalls.map
        (fun call => call.2.length) = [30, 15] := by
  have h := aggregator_batching netW roster45 "did:x" (by decide)
  refine ⟨?_, ?_⟩
  · rw [h.2]
    decide
  · rw [h.1]
    decide

/-- C7: aggregation is all-or-nothing: a result is produced exactly when
every batch query succeeded, and when the aggregation fails its error is one
of the batch errors (no partial result set exists). -/
theorem aggregation_all_or_nothing {E : Type} (net : Network E) (roster : List Member)
    (did : DID) :
    ((∃ out, aggregateStep net roster did = Except.ok out) ↔
      ∀ r ∈ batchResponses net roster did, ∃ response, r = Except.ok response)
    ∧ ∀ e, aggregateStep net roster did = Except.error e →
        Except.error e ∈ batchResponses net roster did := by
  constructor
  · constructor
    · rintro ⟨out, hout⟩ r hr
      unfold aggregateStep at hout
      cases hall : promiseAll (batchResponses net roster did) with
      | error e => rw [hall] at hout; simp [Except.map] at hout
      | ok resps =>
        have hbrs := (promiseAll_ok_iff _ _).mp hall
        rw [hbrs, List.mem_map] at hr
        obtain ⟨resp, _, heq⟩ := hr
        exact ⟨resp, heq.symm⟩
    · intro hall
      obtain ⟨resps, hresps⟩ := promiseAll_ok_of_forall _ hall
      refine ⟨resps.flatMap (fun response =>
        mapDefined response.relationships relationMapper), ?_⟩
      unfold aggregateStep
      rw [hresps]
      rfl
  · intro e he
    unfold aggregateStep at he
    cases hall : promiseAll (batchResponses net roster did) with
    | error e2 =>
      rw [hall] at he
      have h2 : e2 = e := by simpa [Except.map] using he
      exact promiseAll_error_mem _ _ (h2 ▸ hall)
    | ok resps => rw [hall] at he; simp [Except.map] at he

/-- Witness for C7: with a network whose relationship queries fail with
`"boom"`, the aggregation's error is one of the batch responses. -/
theorem aggregation_all_or_nothing_witness :
    Except.error "boom" ∈ batchResponses netErr rosterSmall "did:3" :=
  (aggregation_all_or_nothing netErr rosterSmall "did:3").2 "boom" rfl

/-- C8: the membership query is true exactly when the resource state is
`ready` and the identifier is in the current result; in every other state
(including pending and errored) it is false. -/
theorem membership_query_spec (state : ResourceState) (did : DID) :
    (isFollowed state did = true ↔
      ∃ latest, state = ResourceState.ready latest ∧ did ∈ latest)
    ∧ isFollowed ResourceState.pending did = false
    ∧ (∀ e, isFollowed (ResourceState.errored e) did = false) := by
  refine ⟨?_, rfl, fun _ => rfl⟩
  cases state <;> simp [isFollowed, selectorSource, List.elem_iff]

/-- C9: once query B is submitted while query A is in flight, the final state
reflects only B's outcome, whichever order the two completions arrive in. -/
theorem supersession_spec (c : Controller) (oA oB : Except String (List DID)) :
    (complete (complete (submit (submit c)) (c.cycle + 1) oA) (c.cycle + 2) oB).state
      = settle oB
    ∧ (complete (complete (submit (submit c)) (c.cycle + 2) oB) (c.cycle + 1) oA).state
      = settle oB := by
  constructor
  · have h1 : complete (submit (submit c)) (c.cycle + 1) oA = submit (submit c) := by
      unfold complete submit
      rw [if_neg (show ¬(c.cycle + 1 = c.cycle + 1 + 1) by omega)]
    rw [h1]
    unfold complete submit
    rw [if_pos rfl]
  · have h1 : complete (submit (submit c)) (c.cycle + 2) oB =
        { cycle := c.cycle + 2, state := settle oB } := by
      unfold complete submit
      rw [if_pos rfl]
    rw [h1]
    unfold complete
    rw [if_neg (show ¬(c.cycle + 1 = c.cycle + 2) by omega)]

/-- C10: with a positive size (fuel `arr.length` suffices) or an empty array
the `chunked` loop terminates and returns, while for a non-empty array and a
non-positive size the loop index never reaches the array length, so the loop
neither terminates nor errors for any amount of fuel. -/
theorem chunked_termination {T : Type u} (arr : List T) (size : Int) :
    (1 ≤ size → ∃ out, chunkedLoop arr size arr.length 0 [] = some out)
    ∧ (arr = [] → chunkedLoop arr size 0 0 [] = some [])
    ∧ (arr ≠ [] → size ≤ 0 → ∀ (fuel : Nat), chunkedLoop arr size fuel 0 [] = none) := by
  refine ⟨?_, ?_, ?_⟩
  · intro hs
    have hsz : size = ((size.toNat : Nat) : Int) := by omega
    rw [hsz]
    exact ⟨chunked arr size.toNat, chunkedLoop_eq_chunked arr size.toNat (by omega)⟩
  · intro h
    subst h
    rfl
  · intro hne hsz fuel
    exact chunkedLoop_none_of_nonpos arr hne size hsz fuel 0 le_rfl []

/-- Witness for C10: with size 2 the loop on `[1, 2, 3]` returns; with size 0
it returns nothing even after 100 iterations. -/
theorem chunked_termination_witness :
    (∃ out, chunkedLoop [1, 2, 3] (2 : Int) 3 0 [] = some out)
    ∧ chunkedLoop [1, 2, 3] (0 : Int) 100 0 [] = none :=
  ⟨(chunked_termination [1, 2, 3] 2).1 (by omega),
   (chunked_termination [1, 2, 3] 0).2.2 (by decide) (by omega) 100⟩

end TeamCheck
